import Mathlib

/-!
# Verification of the multiscale pseudo-label reconciliation core

Shallow embedding of `research_tools/generator/multiscale.py`
(`MultiscaleGenerator.multiscale_match` and the per-image driver loop of
`generate_dataset`), together with proofs and refutations of the spec's
testable properties.

Conventions of the embedding:
* Box coordinates and scores are rationals (exact arithmetic standing in for
  the floats of the source; all inputs of interest are exact).
* The geometry helpers `iou_np` and `xywh2xyminmax` live in
  `research_tools/generator/util.py`, which is not part of the sources;
  they are modelled from the spec (section 4.1).
* Value-equality removal scans guarded by `assert` in the source are
  modelled with `Option`: `none` is an uncaught `AssertionError`.
* The leftover-rematch `while` loop of the source can fail to make progress
  (nothing gets removed and the cursor is not advanced); the embedding runs
  it on fuel and returns `none` when the source would loop forever.
-/

/-- An axis-aligned box in `(xmin, ymin, xmax, ymax)` form. -/
structure Box where
  x1 : ℚ
  y1 : ℚ
  x2 : ℚ
  y2 : ℚ
deriving DecidableEq, Repr

/-- Kernel-computable minimum on the rationals. -/
def qmin (a b : ℚ) : ℚ := if a ≤ b then a else b

/-- Kernel-computable maximum on the rationals. -/
def qmax (a b : ℚ) : ℚ := if a ≤ b then b else a

/-- Kernel-computable addition on the rationals (the library's `+` is
`@[irreducible]`, which blocks `decide`/`rfl` evaluation). -/
def qadd (a b : ℚ) : ℚ := mkRat (a.num * b.den + b.num * a.den) (a.den * b.den)

/-- Kernel-computable subtraction on the rationals. -/
def qsub (a b : ℚ) : ℚ := mkRat (a.num * b.den - b.num * a.den) (a.den * b.den)

/-- Kernel-computable multiplication on the rationals. -/
def qmul (a b : ℚ) : ℚ := mkRat (a.num * b.num) (a.den * b.den)

/-- Kernel-computable division on the rationals (0 when dividing by 0,
matching the library convention). -/
def qdiv (a b : ℚ) : ℚ := Rat.divInt (a.num * b.den) (a.den * b.num)

/-- Modelled from the spec (util.py is absent from the sources): `iou_np`,
standard intersection-over-union of two axis-aligned boxes; 0 when the boxes
do not overlap, symmetric. Division by zero (two degenerate boxes) yields 0
under the rational-division convention. -/
def iou (a b : Box) : ℚ :=
  qdiv (qmul (qmax 0 (qsub (qmin a.x2 b.x2) (qmax a.x1 b.x1)))
      (qmax 0 (qsub (qmin a.y2 b.y2) (qmax a.y1 b.y1))))
    (qsub (qadd (qmul (qsub a.x2 a.x1) (qsub a.y2 a.y1))
        (qmul (qsub b.x2 b.x1) (qsub b.y2 b.y1)))
      (qmul (qmax 0 (qsub (qmin a.x2 b.x2) (qmax a.x1 b.x1)))
        (qmax 0 (qsub (qmin a.y2 b.y2) (qmax a.y1 b.y1)))))

/-- A box with positive width and height. -/
def Box.proper (b : Box) : Prop := b.x1 < b.x2 ∧ b.y1 < b.y2

instance (b : Box) : Decidable b.proper := by
  unfold Box.proper; infer_instance

/-- A COCO-style `(x, y, width, height)` box. -/
structure BoxXYWH where
  x : ℚ
  y : ℚ
  w : ℚ
  h : ℚ
deriving DecidableEq, Repr

/-- Modelled from the spec (util.py is absent from the sources):
`xywh2xyminmax`, `(x, y, w, h) ↦ (x, y, x+w, y+h)`. -/
def xywh2xyminmax (b : BoxXYWH) : Box := ⟨b.x, b.y, qadd b.x b.w, qadd b.y b.h⟩

/-- One detection handed to the matcher: box (already rescaled), class id
(already mapped through `cocoid2classid`), score. -/
structure Det where
  box : Box
  cls : ℕ
  score : ℚ
deriving DecidableEq, Repr

/-- One ground-truth record of `annotation_map[image_name]`: COCO xywh box
and class id (already mapped through `cocoid2classid`). -/
structure GtItem where
  bbox : BoxXYWH
  cls : ℕ
deriving DecidableEq, Repr

/-- The configuration the generator passes to the core. -/
structure Cfg where
  conf : ℚ
  iouThresh : ℚ
  rematchThresh : ℕ
deriving DecidableEq, Repr

/-- An entry of the flattened per-image lists of phase 4.4: the numpy row
`[x1, y1, x2, y2, class_id, occurrence]` (lines 357-370). -/
structure FlatItem where
  box : Box
  cls : ℕ
  occ : ℕ
deriving DecidableEq, Repr

/-! ## Generic list helpers mirroring the numpy idioms of the source -/

/-- `np.unique`: ascending list of the distinct elements. -/
def sortDedup (l : List ℕ) : List ℕ := (l.dedup).insertionSort (· ≤ ·)

/-- First index of the maximum together with the maximum (`np.argmax` plus
the value at it); `(0, 0)` on the empty list, which the source never hits. -/
def argmaxQ : List ℚ → ℕ × ℚ
  | [] => (0, 0)
  | [x] => (0, x)
  | x :: y :: xs =>
    if x < (argmaxQ (y :: xs)).2 then
      ((argmaxQ (y :: xs)).1 + 1, (argmaxQ (y :: xs)).2)
    else (0, x)

/-- The value-equality removal scan of the source (find the first row equal
to `t` and delete it), with the `assert idx != -1` modelled as `none`. -/
def eraseFirst {α : Type} [DecidableEq α] (l : List α) (t : α) : Option (List α) :=
  if t ∈ l then some (l.erase t) else none

/-- Sequence of guarded value-equality removals (`sanitize_bboxes`,
lines 393-400). -/
def eraseFirstAll {α : Type} [DecidableEq α] (l targets : List α) : Option (List α) :=
  targets.foldlM eraseFirst l

/-- Sequence of unguarded value-equality removals (the rematch cluster
removal, lines 323-329: a missing row is silently skipped). -/
def eraseLoose {α : Type} [DecidableEq α] (l targets : List α) : List α :=
  targets.foldl List.erase l

/-! ## Phase 4.2: cross-scale GT matcher (multiscale.py lines 256-302) -/

/-- One ground-truth box against one scale's residual detections
(lines 270-288): skip an empty list; otherwise find the first max-IoU
detection and, when its IoU is at least `iou_thresh`, consume it
(`np.delete` by index). Returns the residual list and whether the scale
matched. -/
def matchScaleStep (thr : ℚ) (g : Box) (l : List Box) : List Box × Bool :=
  if l = [] then (l, false)
  else if thr ≤ (argmaxQ (l.map (iou g))).2 then
    (l.eraseIdx (argmaxQ (l.map (iou g))).1, true)
  else (l, false)

/-- One ground-truth box against all scales, ascending scale order
(the keys of `infer_bboxes_scales` are iterated sorted and the association
list is built sorted). Returns the residual per-scale lists and the number
of scales that matched (`len(match_table[gt_idx])`: the source appends the
whole scale array at line 286 but only ever reads the length, line 338). -/
def matchOneGT (thr : ℚ) (g : Box) : List (ℕ × List Box) → List (ℕ × List Box) × ℕ
  | [] => ([], 0)
  | (s, l) :: rest =>
    ((s, (matchScaleStep thr g l).1) :: (matchOneGT thr g rest).1,
      (if (matchScaleStep thr g l).2 then 1 else 0) + (matchOneGT thr g rest).2)

/-- The loop over ground-truth boxes (lines 267-299): per box, match all
scales; if any scale matched, remove the first value-equal row from the
`gt_only` table (lines 290-298, `assert` modelled as `none`). -/
def matchPhaseAux (thr : ℚ) : List Box → List ℕ → List Box → List (ℕ × List Box) →
    Option (List ℕ × List Box × List (ℕ × List Box))
  | [], counts, gtOnly, dets => some (counts, gtOnly, dets)
  | g :: rest, counts, gtOnly, dets =>
    if 0 < (matchOneGT thr g dets).2 then
      match eraseFirst gtOnly g with
      | none => none
      | some gtOnly' =>
        matchPhaseAux thr rest (counts ++ [(matchOneGT thr g dets).2]) gtOnly'
          (matchOneGT thr g dets).1
    else
      matchPhaseAux thr rest (counts ++ [(matchOneGT thr g dets).2]) gtOnly
        (matchOneGT thr g dets).1

/-- Phase 4.2 for one class: `gt_only` starts as a copy of the ground truth
(line 261). -/
def matchPhase (thr : ℚ) (gts : List Box) (dets : List (ℕ × List Box)) :
    Option (List ℕ × List Box × List (ℕ × List Box)) :=
  matchPhaseAux thr gts [] gts dets

/-! ## Phase 4.3: leftover rematcher (multiscale.py lines 304-335) -/

/-- The promotion test of line 319: sort the IoU table, reverse, take
`rematch_thresh` values (fewer when the table is shorter — numpy slicing
does not pad) and require all of them to be at least `iou_thresh`. -/
def promoteTest (thr : ℚ) (k : ℕ) (ious : List ℚ) : Bool :=
  (((ious.insertionSort (· ≤ ·)).reverse.take k).all fun q => decide (thr ≤ q))

/-- The `while srcbbox_idx < len(infer_only_bbox_table)` loop. Each
iteration either promotes (removing every box whose IoU against the cursor
is at least the threshold and appending the cursor box to
`infer_only_extras`, without advancing the cursor) or advances the cursor.
When a promoting iteration removes nothing the source loops forever; the
fuel runs out and the embedding returns `none`. -/
def rematchAux (thr : ℚ) (k : ℕ) : ℕ → ℕ → List Box → List Box →
    Option (List Box × List Box)
  | 0, _, _, _ => none
  | fuel + 1, i, l, extras =>
    match l[i]? with
    | none => some (l, extras)
    | some src =>
      if promoteTest thr k (l.map (iou src)) then
        rematchAux thr k fuel i
          (eraseLoose l (l.filter fun b => decide (thr ≤ iou src b))) (extras ++ [src])
      else
        rematchAux thr k fuel (i + 1) l extras

/-- Phase 4.3 on one class's `infer_only_bbox_table`. The fuel
`l.length + 1` is exact: the measure `len - cursor` strictly decreases on
every productive iteration, so only a genuinely stuck source loop
exhausts it. -/
def rematch (thr : ℚ) (k : ℕ) (l : List Box) : Option (List Box × List Box) :=
  rematchAux thr k (l.length + 1) 0 l []

/-! ## Per-class dispatch (multiscale.py lines 236-351) -/

/-- The three per-class tables right before flattening: `match_table_target`
(box with its occurrence count), `gt_only_bbox_table`,
`infer_only_bbox_table`. -/
structure PerClassOut where
  matched : List (Box × ℕ)
  gtOnly : List Box
  inferOnly : List Box
deriving DecidableEq, Repr

/-- One class of the loop body at lines 239-345. The branch structure is
the source's: no detections for the class (lines 241-248, the rematch loop
then runs on the empty table and is a no-op), no ground truth for the class
(lines 249-255 followed by the rematch loop), or the full matcher. The
final `match_table_target` takes the ground-truth boxes whose match list is
nonempty, in order, followed by the promoted extras with count 1
(lines 337-345). -/
def perClass (cfg : Cfg) (gts : List Box) (inferScales : List (ℕ × List Box)) :
    Option PerClassOut :=
  if inferScales = [] then
    some ⟨[], gts, []⟩
  else if gts = [] then
    match rematch cfg.iouThresh cfg.rematchThresh (inferScales.flatMap Prod.snd) with
    | none => none
    | some (resid, extras) => some ⟨extras.map (fun b => (b, 1)), [], resid⟩
  else
    match matchPhase cfg.iouThresh gts inferScales with
    | none => none
    | some (counts, gtOnly, dets') =>
      match rematch cfg.iouThresh cfg.rematchThresh (dets'.flatMap Prod.snd) with
      | none => none
      | some (resid, extras) =>
        some ⟨((gts.zip counts).filter fun p => decide (0 < p.2)) ++
                extras.map (fun b => (b, 1)),
              gtOnly, resid⟩

/-! ## Input preparation (multiscale.py lines 198-230) -/

/-- `scales` is consumed only through the key set of the per-scale
dictionaries and their `sorted(...)` iterations, so the embedding
canonicalises it once: distinct scales in ascending order. -/
def canonScales (scales : List ℕ) : List ℕ := (scales.dedup).insertionSort (· ≤ ·)

/-- `bboxes_scales[scale]` (with companion class/score arrays fused into
`Det`); a scale without an entry behaves like an empty array. -/
def detsOf (dets : List (ℕ × List Det)) (s : ℕ) : List Det :=
  ((dets.find? fun p => p.1 == s).map Prod.snd).getD []

/-- Line 222: `np.where(scores > self.conf_thresh)` — the core's own
confidence filter, strict. -/
def confFilter (conf : ℚ) (l : List Det) : List Det :=
  l.filter fun d => decide (conf < d.score)

/-- `infer_objects[class_id]` (lines 213-230) iterated over
`sorted(keys)`: for each scale, in ascending order, the boxes of class `c`
that survive the score filter; a scale appears iff its raw entry is not
skipped by the `np.all(bboxes == None)` guard (true for the empty array)
and contributes at least one box of the class. -/
def inferScalesOf (conf : ℚ) (cs : List ℕ) (dets : List (ℕ × List Det)) (c : ℕ) :
    List (ℕ × List Box) :=
  cs.filterMap fun s =>
    let raw := detsOf dets s
    if raw = [] then none
    else
      let boxes := ((confFilter conf raw).filter fun d => d.cls == c).map Det.box
      if boxes = [] then none else some (s, boxes)

/-- `gt_objects[class_id]` (lines 205-211): the ground-truth boxes of class
`c`, converted to min/max form, in annotation order. -/
def gtOf (anns : List GtItem) (c : ℕ) : List Box :=
  ((anns.filter fun a => a.cls == c).map fun a => xywh2xyminmax a.bbox)

/-- Line 236-238: `np.unique` over the raw (pre-filter) class arrays of
every scale together with the ground-truth classes. -/
def classesOf (cs : List ℕ) (dets : List (ℕ × List Det)) (anns : List GtItem) :
    List ℕ :=
  sortDedup ((cs.flatMap fun s => (detsOf dets s).map Det.cls) ++ anns.map GtItem.cls)

/-- The whole per-class stage over an explicit class list. -/
def perClassList (cfg : Cfg) (cs : List ℕ) (dets : List (ℕ × List Det))
    (anns : List GtItem) : List ℕ → Option (List (ℕ × PerClassOut))
  | [] => some []
  | c :: rest =>
    (perClass cfg (gtOf anns c) (inferScalesOf cfg.conf cs dets c)).bind fun o =>
      (perClassList cfg cs dets anns rest).map fun acc => (c, o) :: acc

/-- The whole per-class stage: ascending classes, each with its tables. -/
def perClassAll (cfg : Cfg) (cs : List ℕ) (dets : List (ℕ × List Det))
    (anns : List GtItem) : Option (List (ℕ × PerClassOut)) :=
  perClassList cfg cs dets anns (classesOf cs dets anns)

/-! ## Phase 4.4: cross-class conflict resolver (multiscale.py lines 353-432) -/

/-- The three flattened lists the resolver works on. -/
structure RState where
  matched : List FlatItem
  gtOnly : List FlatItem
  inferOnly : List FlatItem
deriving DecidableEq, Repr

/-- Lines 357-370: flatten the per-class tables across ascending classes;
`gt_only` and `infer_only` rows get occurrence 1. Empty per-class tables
are skipped by the source (lines 346-351) but contribute nothing either
way. -/
def flattenState (pcs : List (ℕ × PerClassOut)) : RState where
  matched := pcs.flatMap fun p => p.2.matched.map fun q => ⟨q.1, p.1, q.2⟩
  gtOnly := pcs.flatMap fun p => p.2.gtOnly.map fun b => ⟨b, p.1, 1⟩
  inferOnly := pcs.flatMap fun p => p.2.inferOnly.map fun b => ⟨b, p.1, 1⟩

/-- Inner-match collection predicate (lines 407-412): a different box with
IoU strictly above the threshold. -/
def pInner (thr : ℚ) (b0 : Box) (t : FlatItem) : Bool :=
  decide (t.box ≠ b0) && decide (thr < iou b0 t.box)

/-- Outer-match collection predicate (lines 417-428): IoU strictly above
the threshold, the box itself not excluded. -/
def pOver (thr : ℚ) (b0 : Box) (t : FlatItem) : Bool :=
  decide (thr < iou b0 t.box)

/-- The class the leaked loop variable `class_id` holds when
`sanitize_bboxes` runs: the Python `for` loops at lines 407, 417 and 425
rebind the enclosing function's `class_id` on every row, so the closure
reads the class of the **last row of the list most recently iterated**,
not the current item's class. -/
def lastCls (l : List FlatItem) : ℕ := (l.getLast?.map FlatItem.cls).getD 0

/-- Lines 384-390: the weighted vote. The observed `class_id` (see
`lastCls`) once, then each overlapping item's class repeated
`occurrence_count` times; `np.unique(..., return_counts=True)` sorts the
distinct classes ascending and `np.argmax` takes the first maximal count,
i.e. the smallest class among the maximal ones. -/
def dominantCls (firstCls : ℕ) (targets : List FlatItem) : ℕ :=
  let votes := firstCls :: targets.flatMap fun t => List.replicate t.occ t.cls
  match (votes.dedup).insertionSort (· ≤ ·) with
  | [] => 0
  | u :: us => us.foldl (fun best c => if votes.count best < votes.count c then c else best) u

/-- One iteration of the resolver's `while` loop (lines 372-432) at cursor
`i`. Three `sanitize_bboxes` calls can happen, in order:

* Inner match (line 414): the overlapping matched rows are deleted, but the
  dominant-class rewrite of line 403 is applied to the **pre-deletion**
  array, which line 414 then discards — the rewrite is lost, so the
  embedding only deletes.
* Outer match against `gt_only` (line 422) and against `infer_only`
  (line 430): rows are deleted from those lists and the current matched row
  is rewritten in place to `(bbox_origin, dominant_class, 1)`, where the
  vote seeds from the leaked `class_id` (see `lastCls`).

Each deletion is a value-equality scan with an `assert` (modelled by
`eraseFirstAll`). -/
def stepAt (thr : ℚ) (i : ℕ) (s : RState) : Option RState :=
  match s.matched[i]? with
  | none => some s
  | some row =>
    let b0 := row.box
    let innerT := s.matched.filter (pInner thr b0)
    (if innerT.isEmpty then some s.matched else eraseFirstAll s.matched innerT).bind
      fun m1 =>
        let gtT := s.gtOnly.filter (pOver thr b0)
        (if gtT.isEmpty then some (m1, s.gtOnly)
         else (eraseFirstAll s.gtOnly gtT).map fun g1 =>
           (m1.set i ⟨b0, dominantCls (lastCls s.gtOnly) gtT, 1⟩, g1)).bind
          fun q =>
            let infT := s.inferOnly.filter (pOver thr b0)
            if infT.isEmpty then some ⟨q.1, q.2, s.inferOnly⟩
            else (eraseFirstAll s.inferOnly infT).map fun f1 =>
              ⟨q.1.set i ⟨b0, dominantCls (lastCls s.inferOnly) infT, 1⟩, q.2, f1⟩

/-- The resolver loop: the cursor advances by one every iteration
(line 432) and the matched list never grows, so `length + 1` fuel is always
enough. -/
def resolveAux (thr : ℚ) : ℕ → ℕ → RState → Option RState
  | 0, _, _ => none
  | fuel + 1, i, s =>
    if i < s.matched.length then
      match stepAt thr i s with
      | none => none
      | some s' => resolveAux thr fuel (i + 1) s'
    else some s

/-- Phase 4.4. -/
def resolveConflicts (thr : ℚ) (s : RState) : Option RState :=
  resolveAux thr (s.matched.length + 1) 0 s

/-! ## Result assembly (multiscale.py lines 434-457) -/

/-- Append `b` to the entry of class `c`, creating the entry at the end on
first sight — Python dict insertion-order semantics. -/
def addToTable (acc : List (ℕ × List Box)) (c : ℕ) (b : Box) : List (ℕ × List Box) :=
  match acc with
  | [] => [(c, [b])]
  | (k, bs) :: rest =>
    if k = c then (k, bs ++ [b]) :: rest else (k, bs) :: addToTable rest c b

/-- Regroup a flattened list into `class_id → boxes`, dropping the
occurrence counts (lines 439-455). -/
def groupByCls (items : List FlatItem) : List (ℕ × List Box) :=
  items.foldl (fun acc it => addToTable acc it.cls it.box) []

/-- The triple `multiscale_match` returns. -/
structure MatchResult where
  matched : List (ℕ × List Box)
  gtOnly : List (ℕ × List Box)
  inferOnly : List (ℕ × List Box)
deriving DecidableEq, Repr

/-- `multiscale_match` with the scale list already canonicalised. -/
def multiscaleMatchCore (cfg : Cfg) (cs : List ℕ) (dets : List (ℕ × List Det))
    (anns : List GtItem) : Option MatchResult :=
  (perClassAll cfg cs dets anns).bind fun pcs =>
    (resolveConflicts cfg.iouThresh (flattenState pcs)).map fun s1 =>
      ⟨groupByCls s1.matched, groupByCls s1.gtOnly, groupByCls s1.inferOnly⟩

/-- `MultiscaleGenerator.multiscale_match` (lines 198-457) for one image:
an absent image in the annotation store is the empty `anns` list
(lines 199-203). -/
def multiscaleMatch (cfg : Cfg) (scales : List ℕ) (dets : List (ℕ × List Det))
    (anns : List GtItem) : Option MatchResult :=
  multiscaleMatchCore cfg (canonScales scales) dets anns

/-! ## The per-image driver loop (multiscale.py lines 154-169) -/

/-- The reconciliation loop of `generate_dataset`: one `multiscale_match`
per image, results accumulated in order. There is no `try`/`except`
around the call, so a failure anywhere aborts the whole loop. -/
def generateLoop (cfg : Cfg) (scales : List ℕ) :
    List (List (ℕ × List Det) × List GtItem) → Option (List MatchResult)
  | [] => some []
  | p :: rest =>
    (multiscaleMatch cfg scales p.1 p.2).bind fun r =>
      (generateLoop cfg scales rest).map fun rs => r :: rs

/-- The mutable state the driver shares with `multiscale_match`: the
per-scale detection store and the annotation store. -/
structure DriverInputs where
  scales : List ℕ
  dets : List (ℕ × List Det)
  anns : List GtItem
deriving DecidableEq, Repr

/-- One call of `self.multiscale_match` as the driver sees it: the result
together with the state of the stores after the call. Every access the
source makes to `bboxes_scales`/`cls_scales`/`scores_scales` and
`annotation_map` is a read — boolean/fancy indexing (lines 222-230),
`np.array(list(map(...)))` (lines 205-207) and `np.copy` (line 261) all
build fresh arrays, and `np.delete` (line 287) rebinds only entries of the
freshly built `infer_objects` — so the stores come back unchanged. -/
def multiscaleMatchCall (cfg : Cfg) (st : DriverInputs) :
    Option MatchResult × DriverInputs :=
  (multiscaleMatch cfg st.scales st.dets st.anns, st)

/-- Lines 161-167: the driver invokes the matcher once per
`batch_idx in range(len(boxes_allscale))`, threading the shared stores
through every call. -/
def driverRepeat (cfg : Cfg) (st : DriverInputs) : ℕ → List (Option MatchResult) × DriverInputs
  | 0 => ([], st)
  | n + 1 =>
    ((multiscaleMatchCall cfg st).1 ::
        (driverRepeat cfg (multiscaleMatchCall cfg st).2 n).1,
      (driverRepeat cfg (multiscaleMatchCall cfg st).2 n).2)

/-! ## Proof-layer definitions (models, invariants, counters) -/

/-- What `stepAt` computes, in filtered form (proof artefact; `stepAt`
itself stays with the source's erase-scan shape). -/
def stepModel (thr : ℚ) (s : RState) (i : ℕ) (b0 : Box) : RState :=
  let base := s.matched.filter fun t => !(pInner thr b0 t)
  let gtT := s.gtOnly.filter (pOver thr b0)
  let m2 := if gtT.isEmpty then base
    else base.set i ⟨b0, dominantCls (lastCls s.gtOnly) gtT, 1⟩
  let infT := s.inferOnly.filter (pOver thr b0)
  let m3 := if infT.isEmpty then m2
    else m2.set i ⟨b0, dominantCls (lastCls s.inferOnly) infT, 1⟩
  ⟨m3, s.gtOnly.filter fun t => !(pOver thr b0 t),
    s.inferOnly.filter fun t => !(pOver thr b0 t)⟩

/-- A box location no surviving item of the state overlaps strictly above
the threshold (matched rows carrying the very same box excepted: the inner
match never compares them, line 408). -/
def GoodBox (thr : ℚ) (b : Box) (s : RState) : Prop :=
  (∀ t ∈ s.matched, t.box ≠ b → iou b t.box ≤ thr) ∧
  (∀ g ∈ s.gtOnly, iou b g.box ≤ thr) ∧
  (∀ x ∈ s.inferOnly, iou b x.box ≤ thr)

/-- Loop invariant of the resolver: every matched row strictly before the
cursor is already fully resolved against the current state. -/
def ResolveInv (thr : ℚ) (i : ℕ) (s : RState) : Prop :=
  ∀ j (hj : j < s.matched.length), j < i → GoodBox thr (s.matched[j].box) s

/-- Post-state of phase 4.4: every surviving matched row is resolved
against every list. -/
def ResolvedState (thr : ℚ) (s : RState) : Prop :=
  ∀ a ∈ s.matched, GoodBox thr a.box s

/-- Total number of detections across the per-scale lists. -/
def sumLens (l : List (ℕ × List Box)) : ℕ := (l.map fun p => p.2.length).sum

/-- Number of ground-truth boxes that found at least one scale. -/
def countPos (l : List ℕ) : ℕ := (l.filter fun n => decide (0 < n)).length

/-- Remove from every scale the detections at or below `conf` — what the
spec claims an external collaborator already did. -/
def confFilterAll (conf : ℚ) (dets : List (ℕ × List Det)) : List (ℕ × List Det) :=
  dets.map fun p => (p.1, confFilter conf p.2)

/-! ## Geometry lemmas -/

theorem qmin_eq_min (a b : ℚ) : qmin a b = min a b := by
  unfold qmin
  rw [min_def]

theorem qmax_eq_max (a b : ℚ) : qmax a b = max a b := by
  unfold qmax
  rw [max_def]

theorem den_cast_ne_zero (q : ℚ) : (q.den : ℚ) ≠ 0 := by
  exact_mod_cast q.den_nz

theorem qadd_eq (a b : ℚ) : qadd a b = a + b := by
  unfold qadd
  rw [Rat.mkRat_eq_div]
  push_cast
  conv_rhs => rw [← Rat.num_div_den a, ← Rat.num_div_den b]
  rw [div_add_div _ _ (den_cast_ne_zero a) (den_cast_ne_zero b)]
  congr 1
  ring

theorem qsub_eq (a b : ℚ) : qsub a b = a - b := by
  unfold qsub
  rw [Rat.mkRat_eq_div]
  push_cast
  conv_rhs => rw [← Rat.num_div_den a, ← Rat.num_div_den b]
  rw [div_sub_div _ _ (den_cast_ne_zero a) (den_cast_ne_zero b)]
  congr 1
  ring

theorem qmul_eq (a b : ℚ) : qmul a b = a * b := by
  unfold qmul
  rw [Rat.mkRat_eq_div]
  push_cast
  conv_rhs => rw [← Rat.num_div_den a, ← Rat.num_div_den b]
  rw [div_mul_div_comm]

theorem div_as_num_den (a b : ℚ) (hb : b ≠ 0) :
    a / b = (a.num : ℚ) * b.den / ((a.den : ℚ) * b.num) := by
  have hbnum : (b.num : ℚ) ≠ 0 := by
    intro hc
    exact (Rat.num_ne_zero.mpr hb) (by exact_mod_cast hc)
  have ha : (a.num : ℚ) = a * a.den := by
    exact_mod_cast (Rat.mul_den_eq_num a).symm
  have hbn : (b.num : ℚ) = b * b.den := by
    exact_mod_cast (Rat.mul_den_eq_num b).symm
  rw [div_eq_div_iff hb (mul_ne_zero (den_cast_ne_zero a) hbnum), ha, hbn]
  ring

theorem qdiv_eq (a b : ℚ) : qdiv a b = a / b := by
  unfold qdiv
  rw [Rat.divInt_eq_div]
  push_cast
  by_cases hb : b = 0
  · rw [hb]
    simp
  · rw [div_as_num_den a b hb]

/-- `iou` through the library's field operations. -/
theorem iou_eq (a b : Box) : iou a b =
    max 0 (min a.x2 b.x2 - max a.x1 b.x1) * max 0 (min a.y2 b.y2 - max a.y1 b.y1) /
      ((a.x2 - a.x1) * (a.y2 - a.y1) + (b.x2 - b.x1) * (b.y2 - b.y1) -
        max 0 (min a.x2 b.x2 - max a.x1 b.x1) * max 0 (min a.y2 b.y2 - max a.y1 b.y1)) := by
  unfold iou
  simp only [qdiv_eq, qmul_eq, qadd_eq, qsub_eq, qmin_eq_min, qmax_eq_max]

/-- IoU is symmetric (spec section 4.1). -/
theorem iou_comm (a b : Box) : iou a b = iou b a := by
  rw [iou_eq, iou_eq]
  rw [min_comm a.x2, max_comm a.x1, min_comm a.y2, max_comm a.y1,
    add_comm ((a.x2 - a.x1) * (a.y2 - a.y1))]

/-- A proper box has IoU 1 with itself. -/
theorem iou_self_of_proper (b : Box) (h : b.proper) : iou b b = 1 := by
  obtain ⟨h1, h2⟩ := h
  rw [iou_eq]
  rw [min_self, min_self, max_self, max_self,
    max_eq_right (sub_nonneg.mpr h1.le), max_eq_right (sub_nonneg.mpr h2.le)]
  have hpos : 0 < (b.x2 - b.x1) * (b.y2 - b.y1) :=
    mul_pos (sub_pos.mpr h1) (sub_pos.mpr h2)
  rw [show (b.x2 - b.x1) * (b.y2 - b.y1) + (b.x2 - b.x1) * (b.y2 - b.y1) -
      (b.x2 - b.x1) * (b.y2 - b.y1) = (b.x2 - b.x1) * (b.y2 - b.y1) by ring]
  exact div_self hpos.ne'

/-! ## Lemmas on the value-equality removal scans -/

theorem eraseFirstAll_nil {α : Type} [DecidableEq α] (l : List α) :
    eraseFirstAll l [] = some l := rfl

theorem eraseFirstAll_cons {α : Type} [DecidableEq α] (l : List α) (t : α) (ts : List α) :
    eraseFirstAll l (t :: ts) =
      if t ∈ l then eraseFirstAll (l.erase t) ts else none := by
  unfold eraseFirstAll eraseFirst
  rw [List.foldlM_cons]
  by_cases ht : t ∈ l
  · rw [if_pos ht, if_pos ht]
    rfl
  · rw [if_neg ht, if_neg ht]
    rfl

theorem eraseFirstAll_cons_of_ne {α : Type} [DecidableEq α] (x : α) (l ts : List α)
    (hx : ∀ t ∈ ts, x ≠ t) :
    eraseFirstAll (x :: l) ts = (eraseFirstAll l ts).map (x :: ·) := by
  induction ts generalizing l with
  | nil => rfl
  | cons t ts ih =>
    have hxt : x ≠ t := hx t (by simp)
    rw [eraseFirstAll_cons, eraseFirstAll_cons]
    by_cases ht : t ∈ l
    · rw [if_pos (by simp [ht]), if_pos ht, List.erase_cons_tail (by simp [hxt])]
      exact ih (l.erase t) (fun u hu => hx u (by simp [hu]))
    · rw [if_neg (by simp [ht, Ne.symm hxt]), if_neg ht]
      rfl

theorem eraseFirstAll_filter {α : Type} [DecidableEq α] (l : List α) (p : α → Bool) :
    eraseFirstAll l (l.filter p) = some (l.filter fun a => !(p a)) := by
  induction l with
  | nil => rfl
  | cons x xs ih =>
    by_cases hp : p x
    · rw [List.filter_cons_of_pos hp, eraseFirstAll_cons, if_pos (by simp),
        List.erase_cons_head, ih, List.filter_cons_of_neg (by simp [hp])]
    · rw [List.filter_cons_of_neg hp, List.filter_cons_of_pos (by simp [hp]),
        eraseFirstAll_cons_of_ne x xs (xs.filter p)
          (fun t ht => fun hxt => hp (hxt ▸ List.of_mem_filter ht)), ih]
      rfl

theorem eraseLoose_of_eraseFirstAll {α : Type} [DecidableEq α] (l ts r : List α)
    (h : eraseFirstAll l ts = some r) : eraseLoose l ts = r := by
  induction ts generalizing l with
  | nil => simpa [eraseFirstAll, eraseLoose] using h
  | cons t ts ih =>
    rw [eraseFirstAll_cons] at h
    by_cases ht : t ∈ l
    · rw [if_pos ht] at h
      exact ih (l.erase t) h
    · rw [if_neg ht] at h
      simp at h

theorem eraseLoose_filter {α : Type} [DecidableEq α] (l : List α) (p : α → Bool) :
    eraseLoose l (l.filter p) = l.filter fun a => !(p a) :=
  eraseLoose_of_eraseFirstAll _ _ _ (eraseFirstAll_filter l p)

/-- Splitting a filter around an all-true prefix. -/
theorem filter_of_take_all {α : Type} (l : List α) (p : α → Bool) (n : ℕ)
    (h : ∀ x ∈ l.take n, p x = true) :
    l.filter p = l.take n ++ (l.drop n).filter p := by
  conv_lhs => rw [← List.take_append_drop n l]
  rw [List.filter_append, List.filter_eq_self.mpr h]

/-! ## Characterisation of one resolver iteration -/

theorem filter_not_of_filter_nil {α : Type} (l : List α) (p : α → Bool)
    (h : l.filter p = []) : (l.filter fun a => !(p a)) = l :=
  List.filter_eq_self.mpr fun a ha => by
    simp [List.filter_eq_nil_iff.mp h a ha]

theorem stepAt_eq (thr : ℚ) (i : ℕ) (s : RState) (row : FlatItem)
    (hrow : s.matched[i]? = some row) :
    stepAt thr i s = some (stepModel thr s i row.box) := by
  have e1 : (if (s.matched.filter (pInner thr row.box)).isEmpty then some s.matched
      else eraseFirstAll s.matched (s.matched.filter (pInner thr row.box))) =
      some (s.matched.filter fun t => !(pInner thr row.box t)) := by
    by_cases hin : (s.matched.filter (pInner thr row.box)).isEmpty
    · rw [if_pos hin, filter_not_of_filter_nil _ _ (List.isEmpty_iff.mp hin)]
    · rw [if_neg hin, eraseFirstAll_filter]
  unfold stepAt stepModel
  rw [hrow]
  simp only
  rw [e1, Option.some_bind]
  by_cases hgt : (s.gtOnly.filter (pOver thr row.box)).isEmpty
  · rw [if_pos hgt, if_pos hgt, Option.some_bind,
      filter_not_of_filter_nil _ _ (List.isEmpty_iff.mp hgt)]
    by_cases hinf : (s.inferOnly.filter (pOver thr row.box)).isEmpty
    · rw [if_pos hinf, if_pos hinf,
        filter_not_of_filter_nil _ _ (List.isEmpty_iff.mp hinf)]
    · rw [if_neg hinf, if_neg hinf, eraseFirstAll_filter]
      rfl
  · rw [if_neg hgt, if_neg hgt, eraseFirstAll_filter, Option.map_some', Option.some_bind]
    by_cases hinf : (s.inferOnly.filter (pOver thr row.box)).isEmpty
    · rw [if_pos hinf, if_pos hinf,
        filter_not_of_filter_nil _ _ (List.isEmpty_iff.mp hinf)]
    · rw [if_neg hinf, if_neg hinf, eraseFirstAll_filter]
      rfl

/-! ## The resolver loop invariant -/

theorem resolveInv_zero (thr : ℚ) (s : RState) : ResolveInv thr 0 s := by
  intro j hj hji
  omega

theorem getElem_eq_of_eq {α : Type} {l1 l2 : List α} (h : l1 = l2) (j : ℕ)
    (h1 : j < l1.length) (h2 : j < l2.length) : l1[j] = l2[j] := by
  subst h
  rfl

theorem pInner_false_of_prefix (thr : ℚ) (s : RState) (i : ℕ)
    (hi : i < s.matched.length) (hinv : ResolveInv thr i s) (j : ℕ)
    (hj : j < s.matched.length) (hji : j < i + 1) :
    pInner thr (s.matched[i].box) (s.matched[j]) = false := by
  rcases Nat.lt_or_ge j i with hlt | hge
  · have hgood := hinv j hj hlt
    by_cases hbe : s.matched[j].box = s.matched[i].box
    · simp [pInner, hbe]
    · have hle : iou s.matched[j].box s.matched[i].box ≤ thr :=
        hgood.1 (s.matched[i]) (List.getElem_mem hi) (fun h => hbe h.symm)
      rw [iou_comm] at hle
      simp [pInner, not_lt.mpr hle]
  · have hji2 : j = i := by omega
    subst hji2
    simp [pInner]

theorem inv_step (thr : ℚ) (i : ℕ) (s : RState) (hi : i < s.matched.length)
    (hinv : ResolveInv thr i s) :
    ResolveInv thr (i + 1) (stepModel thr s i (s.matched[i].box)) ∧
      (stepModel thr s i (s.matched[i].box)).matched.length ≤ s.matched.length := by
  set b0 := s.matched[i].box with hb0
  -- every row of the prefix up to and including the cursor fails `pInner`
  have hpref : ∀ x ∈ s.matched.take (i + 1), (fun t => !(pInner thr b0 t)) x = true := by
    intro x hx
    obtain ⟨j, hjlen, hjx⟩ := List.mem_iff_getElem.mp hx
    have hjlen2 : (s.matched.take (i + 1)).length = min (i + 1) s.matched.length := by
      simp
    have hjlen' : j < s.matched.length := by omega
    have hji : j < i + 1 := by omega
    rw [List.getElem_take] at hjx
    subst hjx
    simp only [Bool.not_eq_true']
    exact pInner_false_of_prefix thr s i hi hinv j hjlen' hji
  have hsplit : s.matched.filter (fun t => !(pInner thr b0 t)) =
      s.matched.take (i + 1) ++ (s.matched.drop (i + 1)).filter (fun t => !(pInner thr b0 t)) :=
    filter_of_take_all _ _ _ hpref
  have htklen : (s.matched.take (i + 1)).length = i + 1 := by
    simp
    omega
  have hbaselen : i + 1 ≤ (s.matched.filter (fun t => !(pInner thr b0 t))).length := by
    rw [hsplit, List.length_append, htklen]
    omega
  have hbasele : (s.matched.filter (fun t => !(pInner thr b0 t))).length ≤ s.matched.length :=
    List.length_filter_le _ _
  have hbase_get : ∀ j, j < i + 1 →
      ∀ (hjb : j < (s.matched.filter (fun t => !(pInner thr b0 t))).length)
        (hjs : j < s.matched.length),
        (s.matched.filter (fun t => !(pInner thr b0 t)))[j] = s.matched[j] := by
    intro j hji hjb hjs
    have hjt : j < (s.matched.take (i + 1)).length := by omega
    rw [getElem_eq_of_eq hsplit j hjb (by rw [← hsplit]; exact hjb),
      List.getElem_append_left hjt, List.getElem_take]
  -- the matched list after the step: the filtered base, possibly with the
  -- cursor slot rewritten to an item at the same box
  have hshape : (stepModel thr s i b0).matched =
        s.matched.filter (fun t => !(pInner thr b0 t)) ∨
      ∃ v : FlatItem, v.box = b0 ∧ (stepModel thr s i b0).matched =
        (s.matched.filter (fun t => !(pInner thr b0 t))).set i v := by
    unfold stepModel
    simp only
    by_cases hgt : (s.gtOnly.filter (pOver thr b0)).isEmpty
    · by_cases hinf : (s.inferOnly.filter (pOver thr b0)).isEmpty
      · rw [if_pos hgt, if_pos hinf]
        exact Or.inl rfl
      · rw [if_pos hgt, if_neg hinf]
        exact Or.inr ⟨⟨b0, dominantCls (lastCls s.inferOnly)
          (s.inferOnly.filter (pOver thr b0)), 1⟩, rfl, rfl⟩
    · by_cases hinf : (s.inferOnly.filter (pOver thr b0)).isEmpty
      · rw [if_neg hgt, if_pos hinf]
        exact Or.inr ⟨⟨b0, dominantCls (lastCls s.gtOnly)
          (s.gtOnly.filter (pOver thr b0)), 1⟩, rfl, rfl⟩
      · rw [if_neg hgt, if_neg hinf, List.set_set]
        exact Or.inr ⟨⟨b0, dominantCls (lastCls s.inferOnly)
          (s.inferOnly.filter (pOver thr b0)), 1⟩, rfl, rfl⟩
  have hglist : (stepModel thr s i b0).gtOnly =
      s.gtOnly.filter fun t => !(pOver thr b0 t) := rfl
  have hflist : (stepModel thr s i b0).inferOnly =
      s.inferOnly.filter fun t => !(pOver thr b0 t) := rfl
  -- length is preserved by `set`, shrunk by the filter
  have hmlen : (stepModel thr s i b0).matched.length =
      (s.matched.filter (fun t => !(pInner thr b0 t))).length := by
    rcases hshape with h | ⟨v, hv, h⟩
    · rw [h]
    · rw [h, List.length_set]
  constructor
  · -- the invariant at `i + 1`
    intro j hj hji
    have hjb : j < (s.matched.filter (fun t => !(pInner thr b0 t))).length := by omega
    have hjs : j < s.matched.length := by omega
    -- the box at slot `j` is the old box at slot `j`
    have hbox : (stepModel thr s i b0).matched[j].box = s.matched[j].box := by
      rcases hshape with h | ⟨v, hv, h⟩
      · rw [getElem_eq_of_eq h j hj (by omega), hbase_get j hji hjb hjs]
      · by_cases hjei : j = i
        · subst hjei
          rw [getElem_eq_of_eq h j hj (by simpa using hjb),
            List.getElem_set_self (by simpa using hjb), hv, hb0]
        · rw [getElem_eq_of_eq h j hj (by simpa using hjb),
            List.getElem_set_ne (fun he => hjei he.symm) (by simpa using hjb),
            hbase_get j hji hjb hjs]
    -- membership in the new matched list
    have hmem : ∀ t ∈ (stepModel thr s i b0).matched,
        (t ∈ s.matched ∧ (pInner thr b0 t) = false) ∨ t.box = b0 := by
      intro t ht
      rcases hshape with h | ⟨v, hv, h⟩
      · rw [h] at ht
        exact Or.inl ⟨List.mem_of_mem_filter ht, by simpa using List.of_mem_filter ht⟩
      · rw [h] at ht
        rcases List.mem_or_eq_of_mem_set ht with ht' | ht'
        · exact Or.inl ⟨List.mem_of_mem_filter ht', by simpa using List.of_mem_filter ht'⟩
        · exact Or.inr (ht' ▸ hv)
    rw [hbox]
    rcases Nat.lt_or_ge j i with hlt | hge
    · -- an already processed row: carried over from the old invariant
      have hgood := hinv j hjs hlt
      refine ⟨?_, ?_, ?_⟩
      · intro t ht hne
        rcases hmem t ht with ⟨hts, _⟩ | htb
        · exact hgood.1 t hts hne
        · have hiou : iou s.matched[j].box (s.matched[i]).box ≤ thr :=
            hgood.1 (s.matched[i]) (List.getElem_mem hi)
              (fun he => hne (by rw [htb, hb0]; exact he))
          rw [htb, hb0]
          exact hiou
      · intro g hg
        rw [hglist] at hg
        exact hgood.2.1 g (List.mem_of_mem_filter hg)
      · intro x hx
        rw [hflist] at hx
        exact hgood.2.2 x (List.mem_of_mem_filter hx)
    · -- the freshly processed cursor row
      have hji2 : j = i := by omega
      subst hji2
      refine ⟨?_, ?_, ?_⟩
      · intro t ht hne
        rw [← hb0] at hne ⊢
        rcases hmem t ht with ⟨_, htp⟩ | htb
        · have htp2 : ¬(t.box ≠ b0 ∧ thr < iou b0 t.box) := by
            simpa [pInner] using htp
          by_cases hlt : thr < iou b0 t.box
          · exact absurd ⟨hne, hlt⟩ htp2
          · exact not_lt.mp hlt
        · exact absurd htb hne
      · intro g hg
        rw [hglist] at hg
        have := List.of_mem_filter hg
        rw [← hb0]
        simpa [pOver, not_lt] using this
      · intro x hx
        rw [hflist] at hx
        have := List.of_mem_filter hx
        rw [← hb0]
        simpa [pOver, not_lt] using this
  · omega

/-! ## Resolver post-state -/

theorem resolveAux_post (thr : ℚ) :
    ∀ fuel i s s', resolveAux thr fuel i s = some s' → ResolveInv thr i s →
      ResolvedState thr s' := by
  intro fuel
  induction fuel with
  | zero =>
    intro i s s' h
    simp [resolveAux] at h
  | succ fuel ih =>
    intro i s s' h hinv
    unfold resolveAux at h
    by_cases hi : i < s.matched.length
    · rw [if_pos hi, stepAt_eq thr i s _ (List.getElem?_eq_getElem hi)] at h
      exact ih (i + 1) _ s' h (inv_step thr i s hi hinv).1
    · rw [if_neg hi] at h
      cases h
      intro a ha
      obtain ⟨j, hj, rfl⟩ := List.mem_iff_getElem.mp ha
      exact hinv j hj (by omega)

theorem resolveConflicts_resolved (thr : ℚ) (s s' : RState)
    (h : resolveConflicts thr s = some s') : ResolvedState thr s' :=
  resolveAux_post thr _ 0 s s' h (resolveInv_zero thr s)

/-- On a resolved state every iteration of the resolver is a no-op. -/
theorem stepAt_of_resolved (thr : ℚ) (i : ℕ) (s : RState)
    (hi : i < s.matched.length) (hres : ResolvedState thr s) :
    stepAt thr i s = some s := by
  have hgood := hres (s.matched[i]) (List.getElem_mem hi)
  have h1 : s.matched.filter (pInner thr (s.matched[i].box)) = [] := by
    apply List.filter_eq_nil_iff.mpr
    intro t ht
    simp only [pInner, Bool.and_eq_true, decide_eq_true_eq, not_and]
    intro hne
    exact not_lt.mpr (hgood.1 t ht hne)
  have h2 : s.gtOnly.filter (pOver thr (s.matched[i].box)) = [] := by
    apply List.filter_eq_nil_iff.mpr
    intro t ht
    simp only [pOver, decide_eq_true_eq]
    exact not_lt.mpr (hgood.2.1 t ht)
  have h3 : s.inferOnly.filter (pOver thr (s.matched[i].box)) = [] := by
    apply List.filter_eq_nil_iff.mpr
    intro t ht
    simp only [pOver, decide_eq_true_eq]
    exact not_lt.mpr (hgood.2.2 t ht)
  rw [stepAt_eq thr i s _ (List.getElem?_eq_getElem hi)]
  unfold stepModel
  simp only
  rw [if_pos (List.isEmpty_iff.mpr h2), if_pos (List.isEmpty_iff.mpr h3),
    filter_not_of_filter_nil _ _ h1, filter_not_of_filter_nil _ _ h2,
    filter_not_of_filter_nil _ _ h3]

theorem resolveAux_of_resolved (thr : ℚ) (s : RState) (hres : ResolvedState thr s) :
    ∀ fuel i, s.matched.length - i < fuel → resolveAux thr fuel i s = some s := by
  intro fuel
  induction fuel with
  | zero =>
    intro i h
    omega
  | succ fuel ih =>
    intro i h
    unfold resolveAux
    by_cases hi : i < s.matched.length
    · rw [if_pos hi, stepAt_of_resolved thr i s hi hres]
      exact ih (i + 1) (by omega)
    · rw [if_neg hi]

theorem resolveConflicts_of_resolved (thr : ℚ) (s : RState)
    (hres : ResolvedState thr s) : resolveConflicts thr s = some s :=
  resolveAux_of_resolved thr s hres (s.matched.length + 1) 0 (by omega)

/-! ## Counting lemmas for phases 4.2 and 4.3 -/

theorem argmaxQ_fst_lt (l : List ℚ) (h : l ≠ []) : (argmaxQ l).1 < l.length := by
  induction l with
  | nil => simp at h
  | cons x xs ih =>
    cases xs with
    | nil => simp [argmaxQ]
    | cons y ys =>
      unfold argmaxQ
      by_cases hlt : x < (argmaxQ (y :: ys)).2
      · rw [if_pos hlt]
        have := ih (by simp)
        simp only [List.length_cons] at this ⊢
        omega
      · rw [if_neg hlt]
        simp

theorem getElem?_mem_of_some {α : Type} {l : List α} {i : ℕ} {a : α}
    (h : l[i]? = some a) : a ∈ l := by
  obtain ⟨hl, rfl⟩ := List.getElem?_eq_some_iff.mp h
  exact List.getElem_mem hl

theorem matchScaleStep_len (thr : ℚ) (g : Box) (l : List Box) :
    (matchScaleStep thr g l).1.length +
      (if (matchScaleStep thr g l).2 then 1 else 0) = l.length := by
  unfold matchScaleStep
  by_cases h : l = []
  · rw [if_pos h]
    simp
  · rw [if_neg h]
    by_cases h2 : thr ≤ (argmaxQ (l.map (iou g))).2
    · rw [if_pos h2]
      have hidx : (argmaxQ (l.map (iou g))).1 < l.length := by
        have := argmaxQ_fst_lt (l.map (iou g)) (by simpa using h)
        simpa using this
      simp only [if_true]
      rw [List.length_eraseIdx_of_lt hidx]
      omega
    · rw [if_neg h2]
      simp

theorem matchOneGT_len (thr : ℚ) (g : Box) :
    ∀ dets, sumLens (matchOneGT thr g dets).1 + (matchOneGT thr g dets).2 =
      sumLens dets := by
  intro dets
  induction dets with
  | nil => rfl
  | cons e rest ih =>
    obtain ⟨s, l⟩ := e
    have hs := matchScaleStep_len thr g l
    unfold matchOneGT
    simp only [sumLens, List.map_cons, List.sum_cons] at ih ⊢
    omega

theorem matchPhaseAux_inv (thr : ℚ) :
    ∀ gts (counts0 g0 : List _) d0 c1 g1 d1,
      matchPhaseAux thr gts counts0 g0 d0 = some (c1, g1, d1) →
      countPos c1 + g1.length = countPos counts0 + g0.length ∧
        c1.sum + sumLens d1 = counts0.sum + sumLens d0 ∧
        c1.length = counts0.length + gts.length := by
  intro gts
  induction gts with
  | nil =>
    intro c0 g0 d0 c1 g1 d1 h
    unfold matchPhaseAux at h
    obtain ⟨rfl, rfl, rfl⟩ : c0 = c1 ∧ g0 = g1 ∧ d0 = d1 := by
      simpa using h
    simp
  | cons g rest ih =>
    intro c0 g0 d0 c1 g1 d1 h
    unfold matchPhaseAux at h
    by_cases hpos : 0 < (matchOneGT thr g d0).2
    · rw [if_pos hpos] at h
      by_cases hmem : g ∈ g0
      · rw [show eraseFirst g0 g = some (g0.erase g) from if_pos hmem] at h
        obtain ⟨e1, e2, e3⟩ := ih _ _ _ _ _ _ h
        have hlen : (g0.erase g).length = g0.length - 1 := List.length_erase_of_mem hmem
        have hg0 : 0 < g0.length := List.length_pos.mpr (List.ne_nil_of_mem hmem)
        have hc : countPos (c0 ++ [(matchOneGT thr g d0).2]) = countPos c0 + 1 := by
          simp [countPos, List.filter_append, hpos]
        have hsum : (c0 ++ [(matchOneGT thr g d0).2]).sum =
            c0.sum + (matchOneGT thr g d0).2 := by
          simp
        have hone := matchOneGT_len thr g d0
        rw [hc, hlen] at e1
        rw [hsum] at e2
        simp at e3
        refine ⟨by omega, by omega, by simp only [List.length_cons]; omega⟩
      · rw [show eraseFirst g0 g = none from if_neg hmem] at h
        simp at h
    · rw [if_neg hpos] at h
      obtain ⟨e1, e2, e3⟩ := ih _ _ _ _ _ _ h
      have hc : countPos (c0 ++ [(matchOneGT thr g d0).2]) = countPos c0 := by
        simp [countPos, List.filter_append, hpos]
      have hone := matchOneGT_len thr g d0
      have hsum : (c0 ++ [(matchOneGT thr g d0).2]).sum =
          c0.sum + (matchOneGT thr g d0).2 := by
        simp
      rw [hc] at e1
      rw [hsum] at e2
      simp at e3
      refine ⟨by omega, by omega, by simp only [List.length_cons]; omega⟩

/-- Phase 4.2 conservation: positives plus leftovers account for every
ground-truth box, and consumed detections plus residuals account for every
detection. -/
theorem matchPhase_conserve (thr : ℚ) (gts : List Box) (dets : List (ℕ × List Box))
    (c1 : List ℕ) (g1 : List Box) (d1 : List (ℕ × List Box))
    (h : matchPhase thr gts dets = some (c1, g1, d1)) :
    countPos c1 + g1.length = gts.length ∧
      c1.sum + sumLens d1 = sumLens dets ∧ c1.length = gts.length := by
  obtain ⟨e1, e2, e3⟩ := matchPhaseAux_inv thr gts [] gts dets c1 g1 d1 h
  refine ⟨?_, ?_, ?_⟩
  · simpa [countPos] using e1
  · simpa using e2
  · simpa using e3

/-! ## Conservation through the leftover rematcher -/

theorem rematchAux_conserve (thr : ℚ) (k : ℕ) (hthr : thr ≤ 1) :
    ∀ fuel i l extras r e,
      rematchAux thr k fuel i l extras = some (r, e) →
      (∀ b ∈ l, b.proper) →
      (e ++ r).Subperm (extras ++ l) ∧ (∀ b ∈ r, b.proper) := by
  intro fuel
  induction fuel with
  | zero =>
    intro i l extras r e h
    simp [rematchAux] at h
  | succ fuel ih =>
    intro i l extras r e h hl
    unfold rematchAux at h
    cases hsrc : l[i]? with
    | none =>
      rw [hsrc] at h
      obtain ⟨rfl, rfl⟩ : l = r ∧ extras = e := by
        simpa using h
      exact ⟨List.Subperm.refl _, hl⟩
    | some src =>
      rw [hsrc] at h
      replace h : (if promoteTest thr k (l.map (iou src)) = true then
          rematchAux thr k fuel i
            (eraseLoose l (l.filter fun b => decide (thr ≤ iou src b))) (extras ++ [src])
        else rematchAux thr k fuel (i + 1) l extras) = some (r, e) := h
      have hsrcmem : src ∈ l := getElem?_mem_of_some hsrc
      by_cases hpt : promoteTest thr k (l.map (iou src)) = true
      · rw [if_pos hpt] at h
        rw [eraseLoose_filter l (fun b => decide (thr ≤ iou src b))] at h
        have hl' : ∀ b ∈ l.filter (fun b => !(decide (thr ≤ iou src b))), b.proper :=
          fun b hb => hl b (List.mem_of_mem_filter hb)
        obtain ⟨hsub, hprop⟩ := ih i _ _ r e h hl'
        refine ⟨hsub.trans ?_, hprop⟩
        apply List.subperm_ext_iff.mpr
        intro x hx
        simp only [List.count_append]
        have hcf : (l.filter fun b => !(decide (thr ≤ iou src b))).count x ≤ l.count x :=
          (List.filter_sublist l).count_le x
        by_cases hxs : x = src
        · subst hxs
          have hps : decide (thr ≤ iou x x) = true := by
            rw [iou_self_of_proper x (hl x hsrcmem)]
            simpa using hthr
          have hc0 : (l.filter fun b => !(decide (thr ≤ iou x b))).count x = 0 := by
            apply List.count_eq_zero.mpr
            intro hmem
            have := List.of_mem_filter hmem
            rw [hps] at this
            simp at this
          have hc1 : 0 < l.count x := List.count_pos_iff.mpr hsrcmem
          simp only [hc0]
          have h1 : ([x] : List Box).count x = 1 := by simp
          rw [h1]
          omega
        · have h0 : ([src] : List Box).count x = 0 := by
            simp [List.count_cons, hxs]
          rw [h0]
          omega
      · rw [if_neg hpt] at h
        exact ih (i + 1) l extras r e h hl

/-- Phase 4.3 conservation: the promoted extras together with the residual
list are drawn without duplication from the incoming list, and residual
boxes keep their geometry. -/
theorem rematch_conserve (thr : ℚ) (k : ℕ) (l : List Box) (r e : List Box)
    (hthr : thr ≤ 1) (h : rematch thr k l = some (r, e))
    (hl : ∀ b ∈ l, b.proper) : (e ++ r).Subperm l ∧ ∀ b ∈ r, b.proper := by
  obtain ⟨hsub, hprop⟩ := rematchAux_conserve thr k hthr (l.length + 1) 0 l [] r e h hl
  exact ⟨by simpa using hsub, hprop⟩

/-! ## Scale-order canonicalisation (for determinism) -/

theorem canonScales_perm_eq (s1 s2 : List ℕ) (h : s1.Perm s2) :
    canonScales s1 = canonScales s2 := by
  unfold canonScales
  exact List.eq_of_perm_of_sorted
    ((List.perm_insertionSort _ _).trans (h.dedup.trans
      (List.perm_insertionSort _ _).symm))
    (List.sorted_insertionSort _ _) (List.sorted_insertionSort _ _)

/-! ## The in-core confidence filter -/

theorem confFilter_idem (conf : ℚ) (l : List Det) :
    confFilter conf (confFilter conf l) = confFilter conf l := by
  unfold confFilter
  rw [List.filter_filter]
  exact List.filter_congr fun a _ => by simp

theorem detsOf_confFilterAll (conf : ℚ) (dets : List (ℕ × List Det)) (s : ℕ) :
    detsOf (confFilterAll conf dets) s = confFilter conf (detsOf dets s) := by
  induction dets with
  | nil => rfl
  | cons e rest ih =>
    obtain ⟨s', l⟩ := e
    unfold confFilterAll detsOf at *
    by_cases hs : (s' == s) = true
    · rw [List.map_cons, List.find?_cons_of_pos _ (by simpa using hs),
        List.find?_cons_of_pos _ (by simpa using hs)]
      rfl
    · rw [List.map_cons, List.find?_cons_of_neg _ (by simpa using hs),
        List.find?_cons_of_neg _ (by simpa using hs)]
      exact ih

theorem inferScalesOf_confFilterAll (conf : ℚ) (cs : List ℕ)
    (dets : List (ℕ × List Det)) (c : ℕ) :
    inferScalesOf conf cs (confFilterAll conf dets) c = inferScalesOf conf cs dets c := by
  unfold inferScalesOf
  apply List.filterMap_congr
  intro s _
  rw [detsOf_confFilterAll]
  by_cases hraw : detsOf dets s = []
  · rw [hraw]
    rfl
  · by_cases hraw2 : confFilter conf (detsOf dets s) = []
    · simp [hraw, hraw2]
    · rw [if_neg hraw2, if_neg hraw, confFilter_idem]

/-- A class the filtered input does not know about has no ground truth and
no surviving detections, so its per-class stage yields empty tables. -/
theorem perClass_neutral (cfg : Cfg) :
    perClass cfg [] [] = some ⟨[], [], []⟩ := rfl

theorem sortDedup_sorted (l : List ℕ) : (sortDedup l).Sorted (· ≤ ·) :=
  List.sorted_insertionSort _ _

theorem sortDedup_nodup (l : List ℕ) : (sortDedup l).Nodup :=
  (List.perm_insertionSort _ _).nodup_iff.mpr (List.nodup_dedup l)

theorem mem_sortDedup {a : ℕ} {l : List ℕ} : a ∈ sortDedup l ↔ a ∈ l := by
  unfold sortDedup
  rw [(List.perm_insertionSort _ _).mem_iff, List.mem_dedup]

/-- Two ascending duplicate-free lists with one containing the other:
the smaller is the filter of the larger. -/
theorem sorted_nodup_eq_filter (A B : List ℕ) (hAs : A.Sorted (· ≤ ·)) (hAn : A.Nodup)
    (hBs : B.Sorted (· ≤ ·)) (hBn : B.Nodup) (hsub : ∀ x ∈ B, x ∈ A) :
    B = A.filter fun x => decide (x ∈ B) := by
  apply List.eq_of_perm_of_sorted _ hBs (hAs.filter _)
  apply (List.perm_ext_iff_of_nodup hBn (hAn.filter _)).mpr
  intro a
  simp only [List.mem_filter, decide_eq_true_eq]
  exact ⟨fun h => ⟨hsub a h, h⟩, fun h => h.2⟩

theorem perClassList_confFilterAll (cfg : Cfg) (cs : List ℕ)
    (dets : List (ℕ × List Det)) (anns : List GtItem) : ∀ cl,
    perClassList cfg cs (confFilterAll cfg.conf dets) anns cl =
      perClassList cfg cs dets anns cl := by
  intro cl
  induction cl with
  | nil => rfl
  | cons c rest ih =>
    unfold perClassList
    rw [inferScalesOf_confFilterAll, ih]

theorem flattenState_cons_neutral (c : ℕ) (acc : List (ℕ × PerClassOut)) :
    flattenState ((c, ⟨[], [], []⟩) :: acc) = flattenState acc := by
  unfold flattenState
  simp

/-- Dropping classes whose per-class stage is empty does not change the
flattened lists. -/
theorem perClassList_flatten_filter (cfg : Cfg) (cs : List ℕ)
    (dets : List (ℕ × List Det)) (anns : List GtItem) (p : ℕ → Bool) :
    ∀ cl, (∀ c ∈ cl, p c = false →
        perClass cfg (gtOf anns c) (inferScalesOf cfg.conf cs dets c) = some ⟨[], [], []⟩) →
      Option.map flattenState (perClassList cfg cs dets anns (cl.filter p)) =
        Option.map flattenState (perClassList cfg cs dets anns cl) := by
  intro cl
  induction cl with
  | nil =>
    intro _
    rfl
  | cons c rest ih =>
    intro hneu
    have ihr := ih fun c2 hc2 hp2 => hneu c2 (by simp [hc2]) hp2
    by_cases hp : p c
    · rw [List.filter_cons_of_pos hp]
      show Option.map flattenState
          ((perClass cfg (gtOf anns c) (inferScalesOf cfg.conf cs dets c)).bind fun o =>
            (perClassList cfg cs dets anns (rest.filter p)).map fun acc => (c, o) :: acc) =
        Option.map flattenState
          ((perClass cfg (gtOf anns c) (inferScalesOf cfg.conf cs dets c)).bind fun o =>
            (perClassList cfg cs dets anns rest).map fun acc => (c, o) :: acc)
      cases hpc : perClass cfg (gtOf anns c) (inferScalesOf cfg.conf cs dets c) with
      | none => rfl
      | some o =>
        simp only [Option.some_bind]
        cases h1 : perClassList cfg cs dets anns (rest.filter p) with
        | none =>
          cases h2 : perClassList cfg cs dets anns rest with
          | none => rfl
          | some acc2 =>
            rw [h1, h2] at ihr
            simp at ihr
        | some acc1 =>
          cases h2 : perClassList cfg cs dets anns rest with
          | none =>
            rw [h1, h2] at ihr
            simp at ihr
          | some acc2 =>
            rw [h1, h2] at ihr
            have hfe : flattenState acc1 = flattenState acc2 := by simpa using ihr
            have em : (acc1.flatMap fun q => q.2.matched.map fun r =>
                (⟨r.1, q.1, r.2⟩ : FlatItem)) = acc2.flatMap fun q =>
                q.2.matched.map fun r => ⟨r.1, q.1, r.2⟩ :=
              congrArg RState.matched hfe
            have eg : (acc1.flatMap fun q => q.2.gtOnly.map fun b =>
                (⟨b, q.1, 1⟩ : FlatItem)) = acc2.flatMap fun q =>
                q.2.gtOnly.map fun b => ⟨b, q.1, 1⟩ :=
              congrArg RState.gtOnly hfe
            have ef : (acc1.flatMap fun q => q.2.inferOnly.map fun b =>
                (⟨b, q.1, 1⟩ : FlatItem)) = acc2.flatMap fun q =>
                q.2.inferOnly.map fun b => ⟨b, q.1, 1⟩ :=
              congrArg RState.inferOnly hfe
            simp only [Option.map_some']
            unfold flattenState
            simp only [List.flatMap_cons, em, eg, ef]
    · rw [List.filter_cons_of_neg hp]
      have hne := hneu c (by simp) (by simpa using hp)
      have hrhs : perClassList cfg cs dets anns (c :: rest) =
          (perClassList cfg cs dets anns rest).map
            fun acc => (c, (⟨[], [], []⟩ : PerClassOut)) :: acc := by
        show ((perClass cfg (gtOf anns c) (inferScalesOf cfg.conf cs dets c)).bind fun o =>
            (perClassList cfg cs dets anns rest).map fun acc => (c, o) :: acc) = _
        rw [hne, Option.some_bind]
      rw [hrhs]
      cases h2 : perClassList cfg cs dets anns rest with
      | none =>
        rw [h2] at ihr
        simpa using ihr
      | some acc2 =>
        rw [h2] at ihr
        rw [ihr]
        simp only [Option.map_some']
        rw [flattenState_cons_neutral]

theorem classes_confFilterAll_subset (conf : ℚ) (cs : List ℕ)
    (dets : List (ℕ × List Det)) (anns : List GtItem) :
    ∀ c ∈ classesOf cs (confFilterAll conf dets) anns, c ∈ classesOf cs dets anns := by
  intro c hc
  unfold classesOf at *
  rw [mem_sortDedup] at *
  rcases List.mem_append.mp hc with hl | hr
  · obtain ⟨s, hs, hcs⟩ := List.mem_flatMap.mp hl
    obtain ⟨d, hd, rfl⟩ := List.mem_map.mp hcs
    rw [detsOf_confFilterAll] at hd
    exact List.mem_append.mpr (Or.inl (List.mem_flatMap.mpr
      ⟨s, hs, List.mem_map.mpr ⟨d, List.mem_of_mem_filter hd, rfl⟩⟩))
  · exact List.mem_append.mpr (Or.inr hr)

theorem dropped_class_empty (conf : ℚ) (cs : List ℕ) (dets : List (ℕ × List Det))
    (anns : List GtItem) (c : ℕ)
    (hnc : c ∉ classesOf cs (confFilterAll conf dets) anns) :
    gtOf anns c = [] ∧ inferScalesOf conf cs dets c = [] := by
  constructor
  · cases hg : gtOf anns c with
    | nil => rfl
    | cons x xs =>
      exfalso
      apply hnc
      have hx : x ∈ gtOf anns c := by rw [hg]; simp
      unfold gtOf at hx
      obtain ⟨a, ha, _⟩ := List.mem_map.mp hx
      have hac : a.cls = c := by simpa using List.of_mem_filter ha
      unfold classesOf
      rw [mem_sortDedup]
      exact List.mem_append.mpr (Or.inr (List.mem_map.mpr
        ⟨a, List.mem_of_mem_filter ha, hac⟩))
  · cases hi : inferScalesOf conf cs dets c with
    | nil => rfl
    | cons e es =>
      exfalso
      apply hnc
      have he : e ∈ inferScalesOf conf cs dets c := by rw [hi]; simp
      unfold inferScalesOf at he
      obtain ⟨s, hs, hfs⟩ := List.mem_filterMap.mp he
      by_cases hraw : detsOf dets s = []
      · rw [if_pos hraw] at hfs
        simp at hfs
      · rw [if_neg hraw] at hfs
        by_cases hbx : (((confFilter conf (detsOf dets s)).filter
            fun d => d.cls == c).map Det.box) = []
        · rw [if_pos hbx] at hfs
          simp at hfs
        · have hne := hbx
          cases hb : ((confFilter conf (detsOf dets s)).filter
              fun d => d.cls == c).map Det.box with
          | nil => exact absurd hb hne
          | cons b bs =>
            have hbmem : b ∈ ((confFilter conf (detsOf dets s)).filter
                fun d => d.cls == c).map Det.box := by rw [hb]; simp
            obtain ⟨d, hd, _⟩ := List.mem_map.mp hbmem
            have hdc : d.cls = c := by simpa using List.of_mem_filter hd
            have hdin : d ∈ confFilter conf (detsOf dets s) := List.mem_of_mem_filter hd
            unfold classesOf
            rw [mem_sortDedup]
            apply List.mem_append.mpr
            apply Or.inl
            apply List.mem_flatMap.mpr
            refine ⟨s, hs, ?_⟩
            rw [detsOf_confFilterAll]
            exact List.mem_map.mpr ⟨d, hdin, hdc⟩

/-- `multiscale_match` already performs the confidence filtering the spec
assigns to a collaborator: feeding it pre-filtered detections changes
nothing. -/
theorem multiscaleMatchCore_confFilter (cfg : Cfg) (cs : List ℕ)
    (dets : List (ℕ × List Det)) (anns : List GtItem) :
    multiscaleMatchCore cfg cs (confFilterAll cfg.conf dets) anns =
      multiscaleMatchCore cfg cs dets anns := by
  have hflat : Option.map flattenState (perClassAll cfg cs (confFilterAll cfg.conf dets) anns) =
      Option.map flattenState (perClassAll cfg cs dets anns) := by
    unfold perClassAll
    rw [perClassList_confFilterAll]
    have hfeq : classesOf cs (confFilterAll cfg.conf dets) anns =
        (classesOf cs dets anns).filter
          fun x => decide (x ∈ classesOf cs (confFilterAll cfg.conf dets) anns) :=
      sorted_nodup_eq_filter _ _ (sortDedup_sorted _) (sortDedup_nodup _)
        (sortDedup_sorted _) (sortDedup_nodup _)
        (classes_confFilterAll_subset cfg.conf cs dets anns)
    rw [hfeq]
    apply perClassList_flatten_filter
    intro c _ hpc
    have hnc : c ∉ classesOf cs (confFilterAll cfg.conf dets) anns := by
      simpa using hpc
    obtain ⟨h1, h2⟩ := dropped_class_empty cfg.conf cs dets anns c hnc
    rw [h1, h2]
    exact perClass_neutral cfg
  unfold multiscaleMatchCore
  cases h1 : perClassAll cfg cs (confFilterAll cfg.conf dets) anns with
  | none =>
    cases h2 : perClassAll cfg cs dets anns with
    | none => rfl
    | some pcs2 =>
      rw [h1, h2] at hflat
      simp at hflat
  | some pcs1 =>
    cases h2 : perClassAll cfg cs dets anns with
    | none =>
      rw [h1, h2] at hflat
      simp at hflat
    | some pcs2 =>
      rw [h1, h2] at hflat
      have hfe : flattenState pcs1 = flattenState pcs2 := by simpa using hflat
      simp only [Option.some_bind]
      rw [hfe]

/-! # Claims -/

/-- C1 (counterexample): the claimed post-condition of phase 4.4 fails for
pairs inside `gt_only`. An image with two overlapping ground-truth boxes of
different classes and no detections: both boxes survive to the final
`gt_only` tables, and their IoU (16/25) exceeds the threshold (1/2) — the
resolver never compares two non-matched items with each other. -/
theorem c1_counterexample :
    multiscaleMatch ⟨mkRat 1 2, mkRat 1 2, 3⟩ [320] [(320, [])]
        [⟨⟨0, 0, 10, 10⟩, 1⟩, ⟨⟨1, 1, 8, 8⟩, 2⟩] =
      some ⟨[], [(1, [⟨0, 0, 10, 10⟩]), (2, [⟨1, 1, 9, 9⟩])], []⟩ ∧
    mkRat 1 2 < iou ⟨0, 0, 10, 10⟩ ⟨1, 1, 9, 9⟩ := by
  constructor
  · rfl
  · decide

/-- C1 (amended): after phase 4.4, every pair of surviving items of which
at least one lies in the flattened `matched` list — and whose boxes are not
coordinate-identical — has IoU at most `iou_thresh`. Pairs lying entirely
within `gt_only`/`infer_only` (or across those two lists), and matched
pairs carrying the same box, are never compared and may still overlap. -/
theorem c1_matched_pairs_disjoint (thr : ℚ) (s s' : RState)
    (h : resolveConflicts thr s = some s') :
    (∀ a ∈ s'.matched, ∀ t ∈ s'.matched, t.box ≠ a.box → iou a.box t.box ≤ thr) ∧
      (∀ a ∈ s'.matched, ∀ g ∈ s'.gtOnly, iou a.box g.box ≤ thr) ∧
      (∀ a ∈ s'.matched, ∀ x ∈ s'.inferOnly, iou a.box x.box ≤ thr) := by
  have hres := resolveConflicts_resolved thr s s' h
  exact ⟨fun a ha t ht hne => (hres a ha).1 t ht hne,
    fun a ha g hg => (hres a ha).2.1 g hg,
    fun a ha x hx => (hres a ha).2.2 x hx⟩

/-- C1 (witness): the amended theorem applied to a run that actually merges
an overlapping `gt_only` item into a matched one. -/
theorem c1_matched_pairs_disjoint_witness :
    resolveConflicts (mkRat 1 2) ⟨[⟨⟨0, 0, 10, 10⟩, 1, 2⟩], [⟨⟨0, 0, 10, 9⟩, 2, 1⟩],
        [⟨⟨20, 20, 30, 30⟩, 1, 1⟩]⟩ =
      some ⟨[⟨⟨0, 0, 10, 10⟩, 2, 1⟩], [], [⟨⟨20, 20, 30, 30⟩, 1, 1⟩]⟩ ∧
    ((∀ a ∈ (⟨[⟨⟨0, 0, 10, 10⟩, 2, 1⟩], [], [⟨⟨20, 20, 30, 30⟩, 1, 1⟩]⟩ : RState).matched,
        ∀ t ∈ (⟨[⟨⟨0, 0, 10, 10⟩, 2, 1⟩], [], [⟨⟨20, 20, 30, 30⟩, 1, 1⟩]⟩ : RState).matched,
          t.box ≠ a.box → iou a.box t.box ≤ mkRat 1 2) ∧
      (∀ a ∈ (⟨[⟨⟨0, 0, 10, 10⟩, 2, 1⟩], [], [⟨⟨20, 20, 30, 30⟩, 1, 1⟩]⟩ : RState).matched,
        ∀ g ∈ (⟨[⟨⟨0, 0, 10, 10⟩, 2, 1⟩], [], [⟨⟨20, 20, 30, 30⟩, 1, 1⟩]⟩ : RState).gtOnly,
          iou a.box g.box ≤ mkRat 1 2) ∧
      (∀ a ∈ (⟨[⟨⟨0, 0, 10, 10⟩, 2, 1⟩], [], [⟨⟨20, 20, 30, 30⟩, 1, 1⟩]⟩ : RState).matched,
        ∀ x ∈ (⟨[⟨⟨0, 0, 10, 10⟩, 2, 1⟩], [], [⟨⟨20, 20, 30, 30⟩, 1, 1⟩]⟩ : RState).inferOnly,
          iou a.box x.box ≤ mkRat 1 2)) :=
  ⟨by decide, c1_matched_pairs_disjoint (mkRat 1 2)
    ⟨[⟨⟨0, 0, 10, 10⟩, 1, 2⟩], [⟨⟨0, 0, 10, 9⟩, 2, 1⟩], [⟨⟨20, 20, 30, 30⟩, 1, 1⟩]⟩
    ⟨[⟨⟨0, 0, 10, 10⟩, 2, 1⟩], [], [⟨⟨20, 20, 30, 30⟩, 1, 1⟩]⟩ (by decide)⟩

/-- C2 (code bug): with `rematch_thresh = 3`, a residual list of only two
coincident unmatched detections is promoted into a matched entry — the
`[:rematch_thresh]` slice of line 319 silently shortens, so the all-check
passes on two IoU values. The claim (and spec Scenario C) expects no
promotion and both boxes to remain in `infer_only`; instead `matched` gets
the box and `infer_only` is empty. -/
theorem c2_undersized_cluster_promoted :
    multiscaleMatch ⟨mkRat 1 2, mkRat 1 2, 3⟩ [320, 640]
        [(320, [⟨⟨5, 5, 15, 15⟩, 2, mkRat 9 10⟩]), (640, [⟨⟨5, 5, 15, 15⟩, 2, mkRat 9 10⟩])] [] =
      some ⟨[(2, [⟨5, 5, 15, 15⟩])], [], []⟩ := by
  rfl

/-- C3 (code bug): Scenario D. A matched box of class 1 with occurrence 3
overlaps a `gt_only` box of class 2. The dominant-class vote is supposed to
contain class 1; but the `for` loops of lines 407/417/425 leak their
`class_id` loop variable into the enclosing scope, so `sanitize_bboxes`
seeds the vote with the class of the last iterated `gt_only` row (class 2)
instead. The vote becomes {2, 2} and the matched entry is rewritten to
class 2, contradicting the claim that it keeps class 1. -/
theorem c3_scenarioD_vote_bug :
    resolveConflicts (mkRat 1 2) ⟨[⟨⟨0, 0, 10, 10⟩, 1, 3⟩], [⟨⟨1, 1, 9, 9⟩, 2, 1⟩], []⟩ =
      some ⟨[⟨⟨0, 0, 10, 10⟩, 2, 1⟩], [], []⟩ ∧
    mkRat 1 2 < iou ⟨0, 0, 10, 10⟩ ⟨1, 1, 9, 9⟩ := by
  constructor
  · rfl
  · decide

/-- C4 (counterexample): a class with detections at three scales and no
ground truth. The claim says phase 4.3 is skipped for such a class so none
of its detections can be promoted; in fact the rematch loop runs
unconditionally (line 307 is outside the `if`/`elif`/`else`) and promotes
the three-scale cluster into a matched entry. -/
theorem c4_counterexample :
    multiscaleMatch ⟨mkRat 1 2, mkRat 1 2, 3⟩ [100, 200, 300]
        [(100, [⟨⟨5, 5, 15, 15⟩, 7, mkRat 9 10⟩]), (200, [⟨⟨5, 5, 15, 15⟩, 7, mkRat 9 10⟩]),
          (300, [⟨⟨5, 5, 15, 15⟩, 7, mkRat 9 10⟩])] [] =
      some ⟨[(7, [⟨5, 5, 15, 15⟩])], [], []⟩ := by
  rfl

/-- C4 (amended): for a class with detections but no ground truth, every
detection is first placed into `infer_only` (flattened over ascending
scales) and the leftover rematcher then runs on that list — phase 4.3 is
not skipped — so the class's matched entries are exactly the promoted
extras with occurrence 1 and its `infer_only` is the rematch residual. -/
theorem c4_no_gt_class_rematch_runs (cfg : Cfg) (anns : List GtItem) (c : ℕ)
    (d : List (ℕ × List Box)) (resid extras : List Box)
    (hgt : gtOf anns c = []) (hd : d ≠ [])
    (hre : rematch cfg.iouThresh cfg.rematchThresh (d.flatMap Prod.snd) =
      some (resid, extras)) :
    perClass cfg (gtOf anns c) d = some ⟨extras.map fun b => (b, 1), [], resid⟩ := by
  rw [hgt]
  unfold perClass
  rw [if_neg hd, if_pos rfl, hre]

/-- C4 (witness): the amended theorem at a two-scale cluster that does get
promoted. -/
theorem c4_no_gt_class_rematch_runs_witness :
    gtOf [] 2 = [] ∧
    rematch (mkRat 1 2 : ℚ) 3 (([(320, [⟨5, 5, 15, 15⟩]),
        (640, [⟨5, 5, 15, 15⟩])] : List (ℕ × List Box)).flatMap Prod.snd) =
      some ([], [⟨5, 5, 15, 15⟩]) ∧
    perClass ⟨mkRat 1 2, mkRat 1 2, 3⟩ (gtOf [] 2) [(320, [⟨5, 5, 15, 15⟩]), (640, [⟨5, 5, 15, 15⟩])] =
      some ⟨[(⟨5, 5, 15, 15⟩, 1)], [], []⟩ :=
  ⟨rfl, by decide,
    c4_no_gt_class_rematch_runs ⟨mkRat 1 2, mkRat 1 2, 3⟩ [] 2
      [(320, [⟨5, 5, 15, 15⟩]), (640, [⟨5, 5, 15, 15⟩])] [] [⟨5, 5, 15, 15⟩]
      rfl (by decide) (by decide)⟩

/-- C5: no double consumption. After phase 4.2, the ground-truth boxes that
got a matched entry plus the boxes left in `gt_only` account for exactly
the original ground truth, and the consumed detections plus the residual
lists account for exactly the input detections; after phase 4.3, the
promoted extras together with the final `infer_only` are drawn without
duplication from the phase-4.2 residual (no detection instance lands in two
tables). -/
theorem c5_no_double_consumption (thr : ℚ) (k : ℕ) (gts : List Box)
    (dets : List (ℕ × List Box)) (counts : List ℕ) (gtOnly : List Box)
    (dets2 : List (ℕ × List Box)) (resid extras : List Box)
    (hthr : thr ≤ 1)
    (h42 : matchPhase thr gts dets = some (counts, gtOnly, dets2))
    (h43 : rematch thr k (dets2.flatMap Prod.snd) = some (resid, extras))
    (hprop : ∀ b ∈ dets2.flatMap Prod.snd, b.proper) :
    countPos counts + gtOnly.length = gts.length ∧
      counts.length = gts.length ∧
      counts.sum + sumLens dets2 = sumLens dets ∧
      (extras ++ resid).Subperm (dets2.flatMap Prod.snd) := by
  obtain ⟨e1, e2, e3⟩ := matchPhase_conserve thr gts dets counts gtOnly dets2 h42
  obtain ⟨hsub, _⟩ := rematch_conserve thr k _ resid extras hthr h43 hprop
  exact ⟨e1, e3, e2, hsub⟩

/-- C5 (witness): one matched ground-truth box consuming one detection per
scale, one leftover detection promoted by the (buggy, see C2) rematcher. -/
theorem c5_no_double_consumption_witness :
    (mkRat 1 2 : ℚ) ≤ 1 ∧
    matchPhase (mkRat 1 2) [⟨0, 0, 10, 10⟩]
        [(320, [⟨0, 0, 10, 10⟩, ⟨50, 50, 60, 60⟩]), (640, [⟨0, 0, 9, 9⟩])] =
      some ([2], [], [(320, [⟨50, 50, 60, 60⟩]), (640, [])]) ∧
    rematch (mkRat 1 2) 3
        (([(320, [⟨50, 50, 60, 60⟩]), (640, ([] : List Box))]).flatMap Prod.snd) =
      some ([], [⟨50, 50, 60, 60⟩]) ∧
    (countPos [2] + ([] : List Box).length = 1 ∧
      ([2] : List ℕ).length = 1 ∧
      ([2] : List ℕ).sum +
          sumLens [(320, [⟨50, 50, 60, 60⟩]), (640, [])] =
        sumLens [(320, [⟨0, 0, 10, 10⟩, ⟨50, 50, 60, 60⟩]), (640, [⟨0, 0, 9, 9⟩])] ∧
      (([⟨50, 50, 60, 60⟩] : List Box) ++ []).Subperm
        (([(320, [⟨50, 50, 60, 60⟩]), (640, [])] :
            List (ℕ × List Box)).flatMap Prod.snd)) :=
  ⟨by decide, by decide, by decide,
    c5_no_double_consumption (mkRat 1 2) 3 [⟨0, 0, 10, 10⟩]
      [(320, [⟨0, 0, 10, 10⟩, ⟨50, 50, 60, 60⟩]), (640, [⟨0, 0, 9, 9⟩])]
      [2] [] [(320, [⟨50, 50, 60, 60⟩]), (640, [])] [] [⟨50, 50, 60, 60⟩]
      (by decide) (by decide) (by decide) (by decide)⟩

/-- C6 (code bug): the claim says a failed reconciliation aborts only its
own image and the batch loop continues. `generate_dataset` (lines 156-169)
has no `try`/`except`: any failure propagates and the whole loop returns
nothing. -/
theorem c6_error_aborts_batch (cfg : Cfg) (scales : List ℕ)
    (images : List (List (ℕ × List Det) × List GtItem))
    (img : List (ℕ × List Det) × List GtItem) (hmem : img ∈ images)
    (hfail : multiscaleMatch cfg scales img.1 img.2 = none) :
    generateLoop cfg scales images = none := by
  induction images with
  | nil => simp at hmem
  | cons x rest ih =>
    unfold generateLoop
    rcases List.mem_cons.mp hmem with heq | hmem2
    · rw [← heq, hfail]
      rfl
    · cases hx : multiscaleMatch cfg scales x.1 x.2 with
      | none => rfl
      | some r =>
        rw [ih hmem2]
        rfl

/-- C6 (witness): a two-image batch in which the second image's
reconciliation fails (`rematch_thresh = 0` with `iou_thresh = 2` makes the
rematch loop of lines 307-335 spin forever without removing anything);
the embedded batch loop loses both images. -/
theorem c6_error_aborts_batch_witness :
    (([(320, [⟨⟨5, 5, 15, 15⟩, 2, mkRat 9 10⟩])], ([] : List GtItem)) ∈
      ([([(320, [⟨⟨0, 0, 10, 10⟩, 1, mkRat 9 10⟩])], [⟨⟨0, 0, 10, 10⟩, 1⟩]),
          ([(320, [⟨⟨5, 5, 15, 15⟩, 2, mkRat 9 10⟩])], [])] :
        List (List (ℕ × List Det) × List GtItem))) ∧
    multiscaleMatch ⟨mkRat 1 2, 2, 0⟩ [320]
        [(320, [⟨⟨5, 5, 15, 15⟩, 2, mkRat 9 10⟩])] [] = none ∧
    generateLoop ⟨mkRat 1 2, 2, 0⟩ [320]
        [([(320, [⟨⟨0, 0, 10, 10⟩, 1, mkRat 9 10⟩])], [⟨⟨0, 0, 10, 10⟩, 1⟩]),
          ([(320, [⟨⟨5, 5, 15, 15⟩, 2, mkRat 9 10⟩])], [])] = none :=
  ⟨by decide, by decide,
    c6_error_aborts_batch ⟨mkRat 1 2, 2, 0⟩ [320]
      [([(320, [⟨⟨0, 0, 10, 10⟩, 1, mkRat 9 10⟩])], [⟨⟨0, 0, 10, 10⟩, 1⟩]),
        ([(320, [⟨⟨5, 5, 15, 15⟩, 2, mkRat 9 10⟩])], [])]
      ([(320, [⟨⟨5, 5, 15, 15⟩, 2, mkRat 9 10⟩])], []) (by decide) (by decide)⟩

/-- C7: conflict resolution is idempotent — re-running phase 4.4 on the
three flattened lists it produced changes nothing. -/
theorem c7_conflict_resolution_idempotent (thr : ℚ) (s s2 : RState)
    (h : resolveConflicts thr s = some s2) : resolveConflicts thr s2 = some s2 :=
  resolveConflicts_of_resolved thr s2 (resolveConflicts_resolved thr s s2 h)

/-- C7 (witness): a run that merges an overlapping `infer_only` item, then
a second run on the result that changes nothing. -/
theorem c7_conflict_resolution_idempotent_witness :
    resolveConflicts (mkRat 1 2) ⟨[⟨⟨0, 0, 6, 6⟩, 1, 1⟩], [], [⟨⟨0, 0, 6, 7⟩, 3, 1⟩]⟩ =
      some ⟨[⟨⟨0, 0, 6, 6⟩, 3, 1⟩], [], []⟩ ∧
    resolveConflicts (mkRat 1 2) ⟨[⟨⟨0, 0, 6, 6⟩, 3, 1⟩], [], []⟩ =
      some ⟨[⟨⟨0, 0, 6, 6⟩, 3, 1⟩], [], []⟩ :=
  ⟨by decide, c7_conflict_resolution_idempotent (mkRat 1 2)
    ⟨[⟨⟨0, 0, 6, 6⟩, 1, 1⟩], [], [⟨⟨0, 0, 6, 7⟩, 3, 1⟩]⟩
    ⟨[⟨⟨0, 0, 6, 6⟩, 3, 1⟩], [], []⟩ (by decide)⟩

/-- C8: determinism with respect to scale order — the result depends on the
scale list only through its set of scales (processed in ascending order),
so any two runs over permuted scale lists, with all other inputs fixed,
return identical tables. -/
theorem c8_scale_order_determinism (cfg : Cfg) (s1 s2 : List ℕ)
    (dets : List (ℕ × List Det)) (anns : List GtItem) (h : s1.Perm s2) :
    multiscaleMatch cfg s1 dets anns = multiscaleMatch cfg s2 dets anns := by
  unfold multiscaleMatch
  rw [canonScales_perm_eq s1 s2 h]

/-- C8 (witness): the same image reconciled with the scale list given in
descending and ascending order. -/
theorem c8_scale_order_determinism_witness :
    ([640, 320] : List ℕ).Perm [320, 640] ∧
    multiscaleMatch ⟨mkRat 1 2, mkRat 1 2, 3⟩ [640, 320]
        [(320, [⟨⟨0, 0, 10, 10⟩, 1, mkRat 3 4⟩]), (640, [⟨⟨0, 0, 9, 9⟩, 1, mkRat 3 4⟩])]
        [⟨⟨0, 0, 10, 10⟩, 1⟩] =
      multiscaleMatch ⟨mkRat 1 2, mkRat 1 2, 3⟩ [320, 640]
        [(320, [⟨⟨0, 0, 10, 10⟩, 1, mkRat 3 4⟩]), (640, [⟨⟨0, 0, 9, 9⟩, 1, mkRat 3 4⟩])]
        [⟨⟨0, 0, 10, 10⟩, 1⟩] :=
  ⟨by decide, c8_scale_order_determinism ⟨mkRat 1 2, mkRat 1 2, 3⟩ [640, 320] [320, 640]
    [(320, [⟨⟨0, 0, 10, 10⟩, 1, mkRat 3 4⟩]), (640, [⟨⟨0, 0, 9, 9⟩, 1, mkRat 3 4⟩])]
    [⟨⟨0, 0, 10, 10⟩, 1⟩] (by decide)⟩

/-- C9 (counterexample): the reconciliation core filters by confidence
itself (line 222, strict `>`). A detection whose score equals `conf_thresh`
vanishes from every output table, while the identical detection with a
higher score shows up — it does not "participate exactly like any other
detection". -/
theorem c9_counterexample :
    multiscaleMatch ⟨mkRat 1 2, mkRat 1 2, 3⟩ [320]
        [(320, [⟨⟨5, 5, 15, 15⟩, 5, mkRat 1 2⟩])] [] = some ⟨[], [], []⟩ ∧
    multiscaleMatch ⟨mkRat 1 2, mkRat 1 2, 3⟩ [320]
        [(320, [⟨⟨5, 5, 15, 15⟩, 5, mkRat 3 4⟩])] [] =
      some ⟨[(5, [⟨5, 5, 15, 15⟩])], [], []⟩ := by
  constructor
  · rfl
  · rfl

/-- C9 (amended): the core performs its own confidence filtering at
`score > conf_thresh`: running it on detections already filtered that way
returns exactly the same result, i.e. detections at or below `conf_thresh`
never influence any phase. -/
theorem c9_core_filters_confidence (cfg : Cfg) (scales : List ℕ)
    (dets : List (ℕ × List Det)) (anns : List GtItem) :
    multiscaleMatch cfg scales (confFilterAll cfg.conf dets) anns =
      multiscaleMatch cfg scales dets anns := by
  unfold multiscaleMatch
  exact multiscaleMatchCore_confFilter cfg (canonScales scales) dets anns

/-- C10: `multiscale_match` never mutates its inputs — the per-scale
detection stores and the annotation store come back unchanged from every
call, so the driver's repeated invocations for the same image all observe
the original detections and return identical results. -/
theorem c10_inputs_unchanged (cfg : Cfg) (st : DriverInputs) (n : ℕ) :
    (driverRepeat cfg st n).2 = st ∧
      (driverRepeat cfg st n).1 =
        List.replicate n (multiscaleMatch cfg st.scales st.dets st.anns) := by
  induction n with
  | zero => exact ⟨rfl, rfl⟩
  | succ n ih =>
    unfold driverRepeat
    exact ⟨ih.1, by rw [List.replicate_succ]; exact congrArg _ ih.2⟩
